import Mathlib

/-!
Shallow embedding of `src/2/ip_pairs_finder.py`.

The program finds pairs of reachable IPv4 addresses sharing a derived
integer property.  Addresses are dotted-quad strings; Python's global
random generator is modelled as an explicit stream of draws (for the
rejection-sampling candidate generators) or as abstract state passed
through `find_pairs`; the unbounded `while True` rejection loops are
modelled with explicit fuel, returning `Option`.
-/

/-- Python's `str.split(sep)` on a list of characters: the (possibly empty)
chunks between occurrences of the separator. `"".split('.') = [""]`. -/
def pySplit (sep : Char) : List Char → List (List Char)
  | [] => [[]]
  | c :: rest =>
    if c = sep then [] :: pySplit sep rest
    else
      match pySplit sep rest with
      | [] => [[c]]
      | s :: ss => (c :: s) :: ss

/-- Python's `int(s)` on a string of decimal digits: fold the digits. -/
def pyInt (ds : List Char) : Nat :=
  ds.foldl (fun n c => 10 * n + (c.toNat - 48)) 0

/-- The decimal digit character for a value below ten. -/
def digitChar : Nat → Char
  | 0 => '0'
  | 1 => '1'
  | 2 => '2'
  | 3 => '3'
  | 4 => '4'
  | 5 => '5'
  | 6 => '6'
  | 7 => '7'
  | 8 => '8'
  | _ => '9'

/-- Decimal rendering with explicit fuel, so that it is structural and the
kernel can evaluate it; `natDigits` supplies fuel `n`, which is enough. -/
def natDigitsAux (fuel : Nat) (n : Nat) : List Char :=
  match fuel with
  | 0 => [digitChar n]
  | f + 1 =>
    if n < 10 then [digitChar n]
    else natDigitsAux f (n / 10) ++ [digitChar (n % 10)]

/-- Python's `str(n)` for a non-negative integer: decimal digits, most
significant first, `"0"` for zero. -/
def natDigits (n : Nat) : List Char :=
  natDigitsAux n n

/-- The f-string `f"{a}.{b}.{c}.{d}"` used by the candidate generators. -/
def mkIp (a b c d : Nat) : String :=
  ⟨natDigits a ++ '.' :: (natDigits b ++ '.' :: (natDigits c ++ '.' :: natDigits d))⟩

/-- Embeds `SumOctetsExtractor.extract_property`: the sum of the dot-separated
decimal fields of the string (`sum(int(octet) for octet in ip.split('.'))`).
No validation of field count or range is performed. -/
def SumOctetsExtractor.extract_property (ip : String) : Nat :=
  ((pySplit '.' ip.data).map pyInt).sum

/-- Embeds `SumOctetsExtractor.generate_candidate`: rejection sampling.  Each loop
iteration draws three octets `(a, b, c)` (the stream `r` models
`random.randint(0, 255)` three times), computes `d = prop_value - (a+b+c)`
over the integers, and accepts when `0 ≤ d ≤ 255`.  The `while True` loop is
given explicit fuel; `none` means the fuel ran out before a draw was
accepted. -/
def SumOctetsExtractor.generate_candidate
    (prop_value : Nat) (r : Nat → Nat × Nat × Nat) : Nat → Option String
  | 0 => none
  | fuel + 1 =>
    let a := (r 0).1
    let b := (r 0).2.1
    let c := (r 0).2.2
    let d : Int := (prop_value : Int) - (a + b + c)
    if 0 ≤ d ∧ d ≤ 255 then some (mkIp a b c d.toNat)
    else SumOctetsExtractor.generate_candidate prop_value (fun k => r (k + 1)) fuel

/-- Popcount with explicit fuel, so that it is structural and the kernel can
evaluate it; `popcount` supplies fuel `n`, which is enough. -/
def popcountAux (fuel : Nat) (n : Nat) : Nat :=
  match fuel with
  | 0 => 0
  | f + 1 => if n = 0 then 0 else n % 2 + popcountAux f (n / 2)

/-- Count of 1-bits in the binary representation (`bin(n).count("1")`). -/
def popcount (n : Nat) : Nat :=
  popcountAux n n

/-- Whether a character is a decimal digit. -/
def isDigitCh (c : Char) : Bool :=
  decide (48 ≤ c.toNat ∧ c.toNat ≤ 57)

/-- Embeds big-endian `int.from_bytes` of `socket.inet_aton(ip)`, modelled for the
dotted-quad decimal form: four dot-separated non-empty all-digit fields each
at most 255 give the 32-bit big-endian value; anything else is `none`
(`inet_aton` raising `OSError`). -/
def inet_aton (ip : String) : Option Nat :=
  match pySplit '.' ip.data with
  | [p, q, r, s] =>
    if (!p.isEmpty) && p.all isDigitCh && decide (pyInt p ≤ 255)
        && (!q.isEmpty) && q.all isDigitCh && decide (pyInt q ≤ 255)
        && (!r.isEmpty) && r.all isDigitCh && decide (pyInt r ≤ 255)
        && (!s.isEmpty) && s.all isDigitCh && decide (pyInt s ≤ 255) then
      some (pyInt p * 16777216 + pyInt q * 65536 + pyInt r * 256 + pyInt s)
    else none
  | _ => none

/-- Embeds `socket.inet_ntoa` of the big-endian bytes of `n`: dotted-quad form of a
32-bit value. -/
def inet_ntoa (n : Nat) : String :=
  mkIp (n / 16777216 % 256) (n / 65536 % 256) (n / 256 % 256) (n % 256)

/-- Embeds `CountOnesExtractor.extract_property`: the popcount of the 32-bit
big-endian integer form of the address; `none` models `inet_aton` raising on
an invalid address. -/
def CountOnesExtractor.extract_property (ip : String) : Option Nat :=
  (inet_aton ip).map popcount

/-- Embeds `CountOnesExtractor.generate_candidate`: rejection sampling.  Each loop
iteration draws `ip_int` (the stream `r` models
`random.randint(0, 2**32 - 1)`) and accepts when its popcount equals
`prop_value`; the accepted value is rendered with `inet_ntoa`.  Fuel models
the unbounded loop. -/
def CountOnesExtractor.generate_candidate
    (prop_value : Nat) (r : Nat → Nat) : Nat → Option String
  | 0 => none
  | fuel + 1 =>
    if popcount (r 0) = prop_value then some (inet_ntoa (r 0))
    else CountOnesExtractor.generate_candidate prop_value (fun k => r (k + 1)) fuel

/-- A result row of `find_pairs`:
`(ip1, "Доступен", ip2, "Доступен", "Свойство=...")`. -/
abbrev Row := String × String × String × String × String

/-- The tuple appended by `find_pairs` when a reachable distinct candidate is
found. -/
def mkRow (ip candidate : String) (prop : Nat) : Row :=
  (ip, "Доступен", candidate, "Доступен", "Свойство=" ++ toString prop)

/-- The inner `for _ in range(self.attempts)` loop of
`IPPairFinder.find_pairs` for one reachable seed `ip` with extracted property
`prop`: each attempt generates a candidate (threading the generator state
`s`), discards it if it equals the seed, otherwise checks reachability and on
success appends a row; the loop never stops early. -/
def attemptLoop {σ : Type} (checker : String → Bool) (gen : Nat → σ → String × σ)
    (ip : String) (prop : Nat) : Nat → σ → List Row × σ
  | 0, s => ([], s)
  | n + 1, s =>
    let candidate := (gen prop s).1
    let s1 := (gen prop s).2
    if candidate = ip then attemptLoop checker gen ip prop n s1
    else if checker candidate then
      let rest := attemptLoop checker gen ip prop n s1
      (mkRow ip candidate prop :: rest.1, rest.2)
    else attemptLoop checker gen ip prop n s1

/-- Embeds `IPPairFinder.find_pairs`: for each seed in order, skip it if the checker
reports it unavailable; otherwise extract its property and run the attempt
loop, accumulating rows in seed order then attempt order.  `checker` models
`self.checker.is_available`, `extract`/`gen` the property extractor, `attempts`
the retry budget (`self.attempts`, default 10), and `σ` the random state
threaded through candidate generation. -/
def IPPairFinder.find_pairs {σ : Type} (checker : String → Bool)
    (extract : String → Nat) (gen : Nat → σ → String × σ)
    (attempts : Nat) : List String → σ → List Row × σ
  | [], s => ([], s)
  | ip :: rest, s =>
    if checker ip then
      let inner := attemptLoop checker gen ip (extract ip) attempts s
      let more := IPPairFinder.find_pairs checker extract gen attempts rest inner.2
      (inner.1 ++ more.1, more.2)
    else IPPairFinder.find_pairs checker extract gen attempts rest s

/-- The generator state after `k` draws at target `t`. -/
def stateAfter {σ : Type} (gen : Nat → σ → String × σ) (t : Nat) (s : σ) : Nat → σ
  | 0 => s
  | k + 1 => (gen t (stateAfter gen t s k)).2

/-- The candidate produced by the `k`-th draw at target `t` from state `s`. -/
def nthCandidate {σ : Type} (gen : Nat → σ → String × σ) (t : Nat) (s : σ)
    (k : Nat) : String :=
  (gen t (stateAfter gen t s k)).1

/-- Embeds `IPApp.run`, restricted to the data it hands to the CSV writer: the fixed
header row and one row per pair returned by `find_pairs`.  The seed list
(`generator.generate_ip_addresses()`) is a parameter; file writing and
logging are dropped. -/
def IPApp.run {σ : Type} (ips : List String) (checker : String → Bool)
    (extract : String → Nat) (gen : Nat → σ → String × σ)
    (attempts : Nat) (s : σ) : List String × List Row :=
  (["IPv4-адрес 1", "Критерий 1", "IPv4-адрес 2", "Критерий 2", "Свойство"],
   (IPPairFinder.find_pairs checker extract gen attempts ips s).1)

/-- A dot-joined rendering of an arbitrary list of non-negative integers
(not necessarily four, not necessarily octets): the shape of the inputs the
octet-sum extractor accepts without validation. -/
def dottedOf : List Nat → List Char
  | [] => []
  | [n] => natDigits n
  | n :: rest => natDigits n ++ '.' :: dottedOf rest

/-- The fuel argument of `natDigitsAux` is irrelevant once it dominates `n`. -/
theorem natDigitsAux_congr (f1 : Nat) : ∀ f2 n, n ≤ f1 → n ≤ f2 →
    natDigitsAux f1 n = natDigitsAux f2 n := by
  induction f1 with
  | zero =>
    intro f2 n h1 _
    have hn : n = 0 := by omega
    subst hn
    cases f2 <;> simp [natDigitsAux]
  | succ f ih =>
    intro f2 n h1 h2
    cases f2 with
    | zero =>
      have hn : n = 0 := by omega
      subst hn
      simp [natDigitsAux]
    | succ g =>
      by_cases h : n < 10
      · simp [natDigitsAux, h]
      · simp only [natDigitsAux, if_neg h]
        rw [ih g (n / 10) (by omega) (by omega)]

/-- Unfolding equation for `natDigits`. -/
theorem natDigits_eq (n : Nat) :
    natDigits n =
      if n < 10 then [digitChar n]
      else natDigits (n / 10) ++ [digitChar (n % 10)] := by
  unfold natDigits
  by_cases h : n < 10
  · cases n with
    | zero => simp [natDigitsAux]
    | succ m => simp [natDigitsAux, h]
  · obtain ⟨m, rfl⟩ : ∃ m, n = m + 1 := ⟨n - 1, by omega⟩
    rw [if_neg h]
    show natDigitsAux (m + 1) (m + 1) = _
    simp only [natDigitsAux, if_neg h]
    rw [natDigitsAux_congr m ((m + 1) / 10) ((m + 1) / 10) (by omega) (by omega)]

/-- Every character `natDigits` emits is `digitChar` of a value below ten. -/
theorem natDigits_mem (n : Nat) : ∀ c ∈ natDigits n, ∃ k, k < 10 ∧ c = digitChar k := by
  induction n using Nat.strong_induction_on with
  | _ n ih =>
    rw [natDigits_eq]
    by_cases h : n < 10
    · rw [if_pos h]
      intro c hc
      rw [List.mem_singleton] at hc
      exact ⟨n, h, hc⟩
    · rw [if_neg h]
      intro c hc
      rcases List.mem_append.1 hc with h1 | h1
      · exact ih (n / 10) (by omega) c h1
      · rw [List.mem_singleton] at h1
        exact ⟨n % 10, by omega, h1⟩

/-- The decimal rendering contains no dot. -/
theorem natDigits_ne_dot (n : Nat) : ∀ c ∈ natDigits n, ¬ c = '.' := by
  intro c hc
  obtain ⟨k, hk, rfl⟩ := natDigits_mem n c hc
  interval_cases k <;> decide

/-- The decimal rendering is never empty. -/
theorem natDigits_ne_nil (n : Nat) : ¬ natDigits n = [] := by
  rw [natDigits_eq]
  by_cases h : n < 10 <;> simp [h]

/-- The decimal rendering consists of digit characters. -/
theorem natDigits_isDigit (n : Nat) : ∀ c ∈ natDigits n, isDigitCh c = true := by
  intro c hc
  obtain ⟨k, hk, rfl⟩ := natDigits_mem n c hc
  interval_cases k <;> decide

/-- Code of the digit character of a value below ten. -/
theorem digitChar_toNat (k : Nat) (h : k < 10) : (digitChar k).toNat = 48 + k := by
  interval_cases k <;> rfl

/-- Appending one digit multiplies the parsed value by ten. -/
theorem pyInt_append (ds : List Char) (c : Char) :
    pyInt (ds ++ [c]) = 10 * pyInt ds + (c.toNat - 48) := by
  simp [pyInt, List.foldl_append]

/-- Parsing inverts decimal rendering. -/
theorem pyInt_natDigits (n : Nat) : pyInt (natDigits n) = n := by
  induction n using Nat.strong_induction_on with
  | _ n ih =>
    rw [natDigits_eq]
    by_cases h : n < 10
    · rw [if_pos h]
      show 10 * 0 + ((digitChar n).toNat - 48) = n
      rw [digitChar_toNat n h]
      omega
    · rw [if_neg h, pyInt_append, ih (n / 10) (by omega),
        digitChar_toNat (n % 10) (by omega)]
      omega

/-- A separator-free list is a single chunk. -/
theorem pySplit_no_sep (sep : Char) (l : List Char) (h : ∀ c ∈ l, ¬ c = sep) :
    pySplit sep l = [l] := by
  induction l with
  | nil => rfl
  | cons c rest ih =>
    have hc : ¬ c = sep := h c (List.mem_cons_self c rest)
    simp [pySplit, hc, ih fun x hx => h x (List.mem_cons_of_mem c hx)]

/-- Splitting past a separator-free prefix peels off one chunk. -/
theorem pySplit_append (sep : Char) (l rest : List Char) (h : ∀ c ∈ l, ¬ c = sep) :
    pySplit sep (l ++ sep :: rest) = l :: pySplit sep rest := by
  induction l with
  | nil => simp [pySplit]
  | cons c t ih =>
    have hc : ¬ c = sep := h c (List.mem_cons_self c t)
    simp [pySplit, hc, ih fun x hx => h x (List.mem_cons_of_mem c hx)]

/-- Splitting the f-string form of an address recovers the four fields. -/
theorem pySplit_mkIp (a b c d : Nat) :
    pySplit '.' (mkIp a b c d).data =
      [natDigits a, natDigits b, natDigits c, natDigits d] := by
  show pySplit '.'
      (natDigits a ++ '.' :: (natDigits b ++ '.' :: (natDigits c ++ '.' :: natDigits d)))
      = _
  rw [pySplit_append _ _ _ (natDigits_ne_dot a),
    pySplit_append _ _ _ (natDigits_ne_dot b),
    pySplit_append _ _ _ (natDigits_ne_dot c),
    pySplit_no_sep _ _ (natDigits_ne_dot d)]

/-- Octet-sum extraction on the rendered address is the sum of the octets. -/
theorem extract_mkIp (a b c d : Nat) :
    SumOctetsExtractor.extract_property (mkIp a b c d) = a + b + c + d := by
  unfold SumOctetsExtractor.extract_property
  rw [pySplit_mkIp]
  simp [pyInt_natDigits]
  omega

/-- The fuel argument of `popcountAux` is irrelevant once it dominates `n`. -/
theorem popcountAux_congr (f1 : Nat) : ∀ f2 n, n ≤ f1 → n ≤ f2 →
    popcountAux f1 n = popcountAux f2 n := by
  induction f1 with
  | zero =>
    intro f2 n h1 _
    have hn : n = 0 := by omega
    subst hn
    cases f2 <;> simp [popcountAux]
  | succ f ih =>
    intro f2 n h1 h2
    cases f2 with
    | zero =>
      have hn : n = 0 := by omega
      subst hn
      simp [popcountAux]
    | succ g =>
      by_cases h : n = 0
      · simp [popcountAux, h]
      · simp only [popcountAux, if_neg h]
        rw [ih g (n / 2) (by omega) (by omega)]

/-- Unfolding equation for `popcount`. -/
theorem popcount_eq (n : Nat) :
    popcount n = if n = 0 then 0 else n % 2 + popcount (n / 2) := by
  unfold popcount
  by_cases h : n = 0
  · subst h
    simp [popcountAux]
  · obtain ⟨m, rfl⟩ : ∃ m, n = m + 1 := ⟨n - 1, by omega⟩
    rw [if_neg h]
    show popcountAux (m + 1) (m + 1) = _
    simp only [popcountAux, if_neg h]
    rw [popcountAux_congr m ((m + 1) / 2) ((m + 1) / 2) (by omega) (by omega)]

/-- A value below `2 ^ k` has at most `k` one-bits. -/
theorem popcount_le (k : Nat) : ∀ n, n < 2 ^ k → popcount n ≤ k := by
  induction k with
  | zero =>
    intro n hn
    have hn0 : n = 0 := by simpa using hn
    subst hn0
    simp [popcount_eq]
  | succ k ih =>
    intro n hn
    rw [popcount_eq]
    by_cases h : n = 0
    · simp [h]
    · rw [if_neg h]
      have h2 : n / 2 < 2 ^ k := by
        rw [pow_succ] at hn
        omega
      have := ih (n / 2) h2
      omega

/-- The bit-count extractor accepts the rendered form of four octets and
returns the popcount of their 32-bit big-endian value. -/
theorem inet_aton_mkIp (a b c d : Nat)
    (ha : a ≤ 255) (hb : b ≤ 255) (hc : c ≤ 255) (hd : d ≤ 255) :
    inet_aton (mkIp a b c d) = some (a * 16777216 + b * 65536 + c * 256 + d) := by
  unfold inet_aton
  rw [pySplit_mkIp]
  have hne : ∀ n : Nat, (natDigits n).isEmpty = false := by
    intro n
    rw [List.isEmpty_eq_false_iff_exists_mem]
    rcases hl : natDigits n with _ | ⟨c0, t⟩
    · exact absurd hl (natDigits_ne_nil n)
    · exact ⟨c0, List.mem_cons_self c0 t⟩
  have hall : ∀ n : Nat, (natDigits n).all isDigitCh = true := by
    intro n
    rw [List.all_eq_true]
    exact natDigits_isDigit n
  simp only [hne, hall, pyInt_natDigits, decide_eq_true ha, decide_eq_true hb,
    decide_eq_true hc, decide_eq_true hd, Bool.not_false, Bool.true_and,
    Bool.and_true]
  rfl

/-- Rendering a 32-bit value and re-reading it is the identity. -/
theorem inet_aton_ntoa (n : Nat) (hn : n < 4294967296) :
    inet_aton (inet_ntoa n) = some n := by
  unfold inet_ntoa
  rw [inet_aton_mkIp _ _ _ _ (by omega) (by omega) (by omega) (by omega)]
  congr 1
  omega

/-- Shifting the start state by one draw shifts `stateAfter` by one. -/
theorem stateAfter_shift {σ : Type} (gen : Nat → σ → String × σ) (t : Nat) (s : σ) :
    ∀ k, stateAfter gen t (gen t s).2 k = stateAfter gen t s (k + 1) := by
  intro k
  induction k with
  | zero => rfl
  | succ j ih =>
    show (gen t (stateAfter gen t (gen t s).2 j)).2 = _
    rw [ih]
    rfl

/-- Shifting the start state by one draw shifts the candidate stream by one. -/
theorem nthCandidate_shift {σ : Type} (gen : Nat → σ → String × σ) (t : Nat) (s : σ)
    (k : Nat) : nthCandidate gen t (gen t s).2 k = nthCandidate gen t s (k + 1) := by
  unfold nthCandidate
  rw [stateAfter_shift]

/-- The attempt loop consumes exactly `n` draws of generator state: one per
attempt, whether the candidate is discarded, unreachable or emitted. -/
theorem attemptLoop_state {σ : Type} (checker : String → Bool)
    (gen : Nat → σ → String × σ) (ip : String) (prop : Nat) :
    ∀ n s, (attemptLoop checker gen ip prop n s).2 = stateAfter gen prop s n := by
  intro n
  induction n with
  | zero => intro s; rfl
  | succ m ih =>
    intro s
    simp only [attemptLoop]
    by_cases h1 : (gen prop s).1 = ip
    · rw [if_pos h1, ih, stateAfter_shift]
    · rw [if_neg h1]
      by_cases h2 : checker (gen prop s).1
      · rw [if_pos h2]
        show (attemptLoop checker gen ip prop m (gen prop s).2).2 = _
        rw [ih, stateAfter_shift]
      · rw [if_neg h2, ih, stateAfter_shift]

/-- Every row the attempt loop emits comes from some draw `k < n` whose
candidate differed from the seed and passed the checker. -/
theorem attemptLoop_mem {σ : Type} (checker : String → Bool)
    (gen : Nat → σ → String × σ) (ip : String) (prop : Nat) :
    ∀ n s row, row ∈ (attemptLoop checker gen ip prop n s).1 →
      ∃ k, k < n ∧ row = mkRow ip (nthCandidate gen prop s k) prop
        ∧ ¬ nthCandidate gen prop s k = ip
        ∧ checker (nthCandidate gen prop s k) = true := by
  intro n
  induction n with
  | zero => intro s row h; exact absurd h (by simp [attemptLoop])
  | succ m ih =>
    intro s row h
    simp only [attemptLoop] at h
    have hc0 : nthCandidate gen prop s 0 = (gen prop s).1 := rfl
    by_cases h1 : (gen prop s).1 = ip
    · rw [if_pos h1] at h
      obtain ⟨k, hk, hrow, hne, hch⟩ := ih (gen prop s).2 row h
      rw [nthCandidate_shift] at hrow hne hch
      exact ⟨k + 1, by omega, hrow, hne, hch⟩
    · rw [if_neg h1] at h
      by_cases h2 : checker (gen prop s).1
      · rw [if_pos h2] at h
        rcases List.mem_cons.1 h with hhead | htail
        · exact ⟨0, by omega, by rw [hc0]; exact hhead, by rw [hc0]; exact h1,
            by rw [hc0]; exact h2⟩
        · obtain ⟨k, hk, hrow, hne, hch⟩ := ih (gen prop s).2 row htail
          rw [nthCandidate_shift] at hrow hne hch
          exact ⟨k + 1, by omega, hrow, hne, hch⟩
      · rw [if_neg h2] at h
        obtain ⟨k, hk, hrow, hne, hch⟩ := ih (gen prop s).2 row h
        rw [nthCandidate_shift] at hrow hne hch
        exact ⟨k + 1, by omega, hrow, hne, hch⟩

/-- If every draw in the budget is discarded or unreachable, the attempt loop
emits nothing. -/
theorem attemptLoop_nil {σ : Type} (checker : String → Bool)
    (gen : Nat → σ → String × σ) (ip : String) (prop : Nat) (n : Nat) (s : σ)
    (h : ∀ k, k < n → nthCandidate gen prop s k = ip
      ∨ checker (nthCandidate gen prop s k) = false) :
    (attemptLoop checker gen ip prop n s).1 = [] := by
  rw [List.eq_nil_iff_forall_not_mem]
  intro row hrow
  obtain ⟨k, hk, _, hne, hch⟩ := attemptLoop_mem checker gen ip prop n s row hrow
  rcases h k hk with hcase | hcase
  · exact hne hcase
  · rw [hch] at hcase
    exact Bool.noConfusion hcase

/-- If the checker accepts every generated candidate and some draw in the
budget differs from the seed, the attempt loop emits at least one row. -/
theorem attemptLoop_ne_nil {σ : Type} (checker : String → Bool)
    (gen : Nat → σ → String × σ) (ip : String) (prop : Nat)
    (hcand : ∀ t st, checker (gen t st).1 = true) :
    ∀ n s, (∃ k, k < n ∧ ¬ nthCandidate gen prop s k = ip) →
      ¬ (attemptLoop checker gen ip prop n s).1 = [] := by
  intro n
  induction n with
  | zero =>
    intro s h
    obtain ⟨k, hk, _⟩ := h
    exact absurd hk (by omega)
  | succ m ih =>
    intro s h
    obtain ⟨k, hk, hne⟩ := h
    simp only [attemptLoop]
    by_cases h1 : (gen prop s).1 = ip
    · rw [if_pos h1]
      have hk0 : ¬ k = 0 := by
        intro h0
        subst h0
        exact hne h1
      apply ih (gen prop s).2
      refine ⟨k - 1, by omega, ?_⟩
      rw [nthCandidate_shift, show k - 1 + 1 = k by omega]
      exact hne
    · rw [if_neg h1, if_pos (hcand prop s)]
      simp

/-- Every row `find_pairs` returns comes from a seed in the list and some
draw in its attempt budget whose candidate differed from the seed. -/
theorem find_pairs_mem {σ : Type} (checker : String → Bool) (extract : String → Nat)
    (gen : Nat → σ → String × σ) (attempts : Nat) :
    ∀ ips s row, row ∈ (IPPairFinder.find_pairs checker extract gen attempts ips s).1 →
      ∃ ip, ip ∈ ips ∧ checker ip = true ∧ ∃ st k, k < attempts
        ∧ row = mkRow ip (nthCandidate gen (extract ip) st k) (extract ip)
        ∧ ¬ nthCandidate gen (extract ip) st k = ip
        ∧ checker (nthCandidate gen (extract ip) st k) = true := by
  intro ips
  induction ips with
  | nil =>
    intro s row h
    exact absurd h (by simp [IPPairFinder.find_pairs])
  | cons ip rest ih =>
    intro s row h
    simp only [IPPairFinder.find_pairs] at h
    by_cases hip : checker ip
    · rw [if_pos hip] at h
      rcases List.mem_append.1 h with h1 | h1
      · obtain ⟨k, hk, hrow, hne, hch⟩ :=
          attemptLoop_mem checker gen ip (extract ip) attempts s row h1
        exact ⟨ip, List.mem_cons_self ip rest, hip, s, k, hk, hrow, hne, hch⟩
      · obtain ⟨ip2, hmem, hip2, st, k, hk, hrow, hne, hch⟩ := ih _ row h1
        exact ⟨ip2, List.mem_cons_of_mem ip hmem, hip2, st, k, hk, hrow, hne, hch⟩
    · rw [if_neg hip] at h
      obtain ⟨ip2, hmem, hip2, st, k, hk, hrow, hne, hch⟩ := ih s row h
      exact ⟨ip2, List.mem_cons_of_mem ip hmem, hip2, st, k, hk, hrow, hne, hch⟩

/-- If the draw at index `i` is acceptable for target `t`, the octet-sum
rejection loop returns an address within `i + 1` iterations. -/
theorem sum_gen_succeeds (t : Nat) :
    ∀ (i : Nat) (r : Nat → Nat × Nat × Nat),
      0 ≤ (t : Int) - ((r i).1 + (r i).2.1 + (r i).2.2) →
      (t : Int) - ((r i).1 + (r i).2.1 + (r i).2.2) ≤ 255 →
      ∃ addr, SumOctetsExtractor.generate_candidate t r (i + 1) = some addr := by
  intro i
  induction i with
  | zero =>
    intro r h1 h2
    have heq : SumOctetsExtractor.generate_candidate t r 1
        = some (mkIp (r 0).1 (r 0).2.1 (r 0).2.2
            ((t : Int) - ((r 0).1 + (r 0).2.1 + (r 0).2.2)).toNat) := by
      simp only [SumOctetsExtractor.generate_candidate]
      rw [if_pos ⟨h1, h2⟩]
    exact ⟨_, heq⟩
  | succ j ih =>
    intro r h1 h2
    simp only [SumOctetsExtractor.generate_candidate]
    split
    · exact ⟨_, rfl⟩
    · exact ih (fun k => r (k + 1)) h1 h2

/-- If the draw at index `i` has the target popcount, the popcount rejection
loop returns an address within `i + 1` iterations. -/
theorem ones_gen_succeeds (t : Nat) :
    ∀ (i : Nat) (r : Nat → Nat),
      popcount (r i) = t →
      ∃ addr, CountOnesExtractor.generate_candidate t r (i + 1) = some addr := by
  intro i
  induction i with
  | zero =>
    intro r h
    have heq : CountOnesExtractor.generate_candidate t r 1 = some (inet_ntoa (r 0)) := by
      simp only [CountOnesExtractor.generate_candidate]
      rw [if_pos h]
    exact ⟨_, heq⟩
  | succ j ih =>
    intro r h
    simp only [CountOnesExtractor.generate_candidate]
    split
    · exact ⟨_, rfl⟩
    · exact ih (fun k => r (k + 1)) h

/-- An all-ones value witnesses every popcount target. -/
theorem popcount_pow_sub_one (t : Nat) : popcount (2 ^ t - 1) = t := by
  induction t with
  | zero => simp [popcount_eq]
  | succ k ih =>
    have h1 : (1 : Nat) ≤ 2 ^ k := Nat.one_le_two_pow
    have h2 : 2 ^ (k + 1) - 1 = 2 * (2 ^ k - 1) + 1 := by
      rw [pow_succ]
      omega
    rw [h2, popcount_eq]
    have hne : ¬ 2 * (2 ^ k - 1) + 1 = 0 := by omega
    rw [if_neg hne]
    have hmod : (2 * (2 ^ k - 1) + 1) % 2 = 1 := by omega
    have hdiv : (2 * (2 ^ k - 1) + 1) / 2 = 2 ^ k - 1 := by omega
    rw [hmod, hdiv, ih]
    omega

/-- Bit-count extraction inverts `inet_ntoa` on 32-bit values. -/
theorem extract_ntoa (n : Nat) (hn : n < 4294967296) :
    CountOnesExtractor.extract_property (inet_ntoa n) = some (popcount n) := by
  unfold CountOnesExtractor.extract_property
  rw [inet_aton_ntoa n hn]
  rfl

/-- Splitting a dot-joined rendering of a non-empty list of values recovers
the rendered fields. -/
theorem pySplit_dottedOf : ∀ ns : List Nat, ¬ ns = [] →
    pySplit '.' (dottedOf ns) = ns.map natDigits := by
  intro ns
  induction ns with
  | nil => intro h; exact absurd rfl h
  | cons n rest ih =>
    intro _
    cases rest with
    | nil =>
      show pySplit '.' (natDigits n) = [natDigits n]
      exact pySplit_no_sep '.' (natDigits n) (natDigits_ne_dot n)
    | cons m t =>
      show pySplit '.' (natDigits n ++ '.' :: dottedOf (m :: t)) = _
      rw [pySplit_append '.' (natDigits n) (dottedOf (m :: t)) (natDigits_ne_dot n),
        ih (by simp)]
      rfl

/-- C2: round-trip law.  For any in-range target, whenever a rejection
sampling run of `generate_candidate` returns an address, extracting the same
strategy's property from that address yields the target back (randomness is
an arbitrary stream of in-range draws, fuel arbitrary). -/
theorem C2_roundtrip_law :
    (∀ (t fuel : Nat) (r : Nat → Nat × Nat × Nat) (addr : String), t ≤ 1020 →
      SumOctetsExtractor.generate_candidate t r fuel = some addr →
      SumOctetsExtractor.extract_property addr = t)
    ∧ (∀ (t fuel : Nat) (r : Nat → Nat) (addr : String), t ≤ 32 →
      (∀ i, r i < 4294967296) →
      CountOnesExtractor.generate_candidate t r fuel = some addr →
      CountOnesExtractor.extract_property addr = some t) := by
  constructor
  · intro t fuel
    induction fuel with
    | zero =>
      intro r addr _ h
      exact absurd h (by simp [SumOctetsExtractor.generate_candidate])
    | succ f ih =>
      intro r addr ht h
      simp only [SumOctetsExtractor.generate_candidate] at h
      split at h
      · rename_i h0
        have haddr := (Option.some.inj h).symm
        subst haddr
        rw [extract_mkIp]
        omega
      · exact ih (fun k => r (k + 1)) addr ht h
  · intro t fuel
    induction fuel with
    | zero =>
      intro r addr _ _ h
      exact absurd h (by simp [CountOnesExtractor.generate_candidate])
    | succ f ih =>
      intro r addr ht hr h
      simp only [CountOnesExtractor.generate_candidate] at h
      split at h
      · rename_i h0
        have haddr := (Option.some.inj h).symm
        subst haddr
        rw [extract_ntoa (r 0) (hr 0), h0]
      · exact ih (fun k => r (k + 1)) addr ht (fun i => hr (i + 1)) h

/-- C6: termination of the rejection-sampling loops on valid targets.  For
every octet-sum target in `[0, 1020]` an acceptable draw exists, and on any
draw stream that ever produces an acceptable draw the loop returns an
address given enough fuel; likewise for every popcount target in `[0, 32]`.
(A draw stream that never hits the acceptance set makes the `while True`
loop spin forever; with uniform random draws such a stream has probability
zero, and this is the reference design's accepted behaviour.) -/
theorem C6_generation_terminates :
    (∀ t : Nat, t ≤ 1020 →
      (∃ a b c : Nat, a ≤ 255 ∧ b ≤ 255 ∧ c ≤ 255
        ∧ 0 ≤ (t : Int) - (a + b + c) ∧ (t : Int) - (a + b + c) ≤ 255)
      ∧ ∀ r : Nat → Nat × Nat × Nat,
          (∃ i, 0 ≤ (t : Int) - ((r i).1 + (r i).2.1 + (r i).2.2)
            ∧ (t : Int) - ((r i).1 + (r i).2.1 + (r i).2.2) ≤ 255) →
          ∃ fuel addr, SumOctetsExtractor.generate_candidate t r fuel = some addr)
    ∧ (∀ t : Nat, t ≤ 32 →
      (∃ n : Nat, n < 4294967296 ∧ popcount n = t)
      ∧ ∀ r : Nat → Nat, (∃ i, popcount (r i) = t) →
          ∃ fuel addr, CountOnesExtractor.generate_candidate t r fuel = some addr) := by
  constructor
  · intro t ht
    constructor
    · obtain ⟨a, b, c, ha, hb, hc, hle, hsub⟩ :
          ∃ a b c : Nat, a ≤ 255 ∧ b ≤ 255 ∧ c ≤ 255
            ∧ a + b + c ≤ t ∧ t - (a + b + c) ≤ 255 :=
        ⟨min t 255, min (t - min t 255) 255,
          min (t - min t 255 - min (t - min t 255) 255) 255,
          by omega, by omega, by omega, by omega, by omega⟩
      exact ⟨a, b, c, ha, hb, hc, by omega, by omega⟩
    · rintro r ⟨i, h1, h2⟩
      obtain ⟨addr, haddr⟩ := sum_gen_succeeds t i r h1 h2
      exact ⟨i + 1, addr, haddr⟩
  · intro t ht
    constructor
    · refine ⟨2 ^ t - 1, ?_, popcount_pow_sub_one t⟩
      have h32 : (2 : Nat) ^ t ≤ 2 ^ 32 := Nat.pow_le_pow_right (by omega) ht
      have h32v : (2 : Nat) ^ 32 = 4294967296 := by norm_num
      omega
    · rintro r ⟨i, hacc⟩
      obtain ⟨addr, haddr⟩ := ones_gen_succeeds t i r hacc
      exact ⟨i + 1, addr, haddr⟩

/-- C8: on every dotted-quad address with four octets in range, the
octet-sum extractor returns the literal sum of the octets, which lies in
`[0, 1020]`; in particular `"10.20.30.40"` maps to `100`. -/
theorem C8_octet_sum_in_range (a b c d : Nat)
    (ha : a ≤ 255) (hb : b ≤ 255) (hc : c ≤ 255) (hd : d ≤ 255) :
    SumOctetsExtractor.extract_property (mkIp a b c d) = a + b + c + d
    ∧ SumOctetsExtractor.extract_property (mkIp a b c d) ≤ 1020
    ∧ SumOctetsExtractor.extract_property "10.20.30.40" = 100 := by
  refine ⟨extract_mkIp a b c d, ?_, by decide⟩
  rw [extract_mkIp a b c d]
  omega

/-- Witness for C8 at the spec's example address. -/
theorem C8_octet_sum_in_range_witness :
    SumOctetsExtractor.extract_property (mkIp 10 20 30 40) = 10 + 20 + 30 + 40 := by
  have h := C8_octet_sum_in_range 10 20 30 40 (by omega) (by omega) (by omega) (by omega)
  exact h.1

/-- C9: on every dotted-quad address with four octets in range, the bit-count
extractor returns the popcount of the 32-bit big-endian value of the
address, which lies in `[0, 32]`; `"255.255.255.255"` maps to `32` and
`"0.0.0.0"` to `0`. -/
theorem C9_popcount_in_range (a b c d : Nat)
    (ha : a ≤ 255) (hb : b ≤ 255) (hc : c ≤ 255) (hd : d ≤ 255) :
    CountOnesExtractor.extract_property (mkIp a b c d)
      = some (popcount (a * 16777216 + b * 65536 + c * 256 + d))
    ∧ popcount (a * 16777216 + b * 65536 + c * 256 + d) ≤ 32
    ∧ CountOnesExtractor.extract_property "255.255.255.255" = some 32
    ∧ CountOnesExtractor.extract_property "0.0.0.0" = some 0 := by
  refine ⟨?_, ?_, by decide, by decide⟩
  · unfold CountOnesExtractor.extract_property
    rw [inet_aton_mkIp a b c d ha hb hc hd]
    rfl
  · apply popcount_le 32
    have h32v : (2 : Nat) ^ 32 = 4294967296 := by norm_num
    omega

/-- Witness for C9 at the spec's example address. -/
theorem C9_popcount_in_range_witness :
    CountOnesExtractor.extract_property (mkIp 255 255 255 255)
      = some (popcount (255 * 16777216 + 255 * 65536 + 255 * 256 + 255)) := by
  have h := C9_popcount_in_range 255 255 255 255 (by omega) (by omega) (by omega) (by omega)
  exact h.1

/-- C10: the octet-sum extractor performs no validation.  Any dot-joined
list of decimal integers is accepted and mapped to its literal sum: strings
that are not IPv4 addresses, such as `"300.1.1.1"` (field over 255) or
`"1.2"` (two fields), are processed, and the result can exceed 1020. -/
theorem C10_no_validation (ns : List Nat) (hne : ¬ ns = []) :
    SumOctetsExtractor.extract_property ⟨dottedOf ns⟩ = ns.sum
    ∧ SumOctetsExtractor.extract_property "300.1.1.1" = 303
    ∧ SumOctetsExtractor.extract_property "1.2" = 3
    ∧ 1020 < SumOctetsExtractor.extract_property "999.999.999.999" := by
  refine ⟨?_, by decide, by decide, by decide⟩
  unfold SumOctetsExtractor.extract_property
  show ((pySplit '.' (dottedOf ns)).map pyInt).sum = ns.sum
  rw [pySplit_dottedOf ns hne, List.map_map]
  have : pyInt ∘ natDigits = id := by
    funext n
    exact pyInt_natDigits n
  rw [this, List.map_id]

/-- Witness for C10 on the spec's two-field example. -/
theorem C10_no_validation_witness :
    SumOctetsExtractor.extract_property ⟨dottedOf [300, 1, 1, 1]⟩ = List.sum [300, 1, 1, 1] := by
  have h := C10_no_validation [300, 1, 1, 1] (by simp)
  exact h.1

/-- C1: invariant of every returned tuple.  Provided the strategy satisfies
its generation contract (every generated candidate extracts back to the
requested target — proved for the two concrete strategies in the round-trip
law), every tuple `find_pairs` returns has seed and candidate with the same
extracted property, records that common value in its property field, and has
candidate distinct from seed. -/
theorem C1_matched_pair_invariant {σ : Type} (checker : String → Bool)
    (extract : String → Nat) (gen : Nat → σ → String × σ) (attempts : Nat)
    (ips : List String) (s : σ)
    (hrt : ∀ (t : Nat) (st : σ), extract (gen t st).1 = t) :
    ∀ row ∈ (IPPairFinder.find_pairs checker extract gen attempts ips s).1,
      extract row.1 = extract row.2.2.1
      ∧ row.2.2.2.2 = "Свойство=" ++ toString (extract row.1)
      ∧ ¬ row.2.2.1 = row.1 := by
  intro row hrow
  obtain ⟨ip, _, _, st, k, _, hroweq, hne, _⟩ :=
    find_pairs_mem checker extract gen attempts ips s row hrow
  subst hroweq
  have hcand : extract (nthCandidate gen (extract ip) st k) = extract ip := hrt _ _
  exact ⟨hcand.symm, rfl, hne⟩

/-- Witness for C1: a length-based strategy on a singleton seed list. -/
theorem C1_matched_pair_invariant_witness :
    String.length "zz" = String.length "aa"
    ∧ ("Свойство=2" : String) = "Свойство=" ++ toString (String.length "zz")
    ∧ ¬ ("aa" : String) = "zz" := by
  have h := C1_matched_pair_invariant (σ := Unit) (fun _ => true) String.length
    (fun t _ => (⟨List.replicate t 'a'⟩, ())) 1 ["zz"] ()
    (fun t st => by simp [String.length])
    ("zz", "Доступен", "aa", "Доступен", "Свойство=2") (by decide)
  exact h

/-- At target 0 the octet-sum generator can only ever return `"0.0.0.0"`:
the acceptance set of the rejection loop is the single draw `(0, 0, 0)`. -/
theorem sum_candidate_zero : ∀ (fuel : Nat) (r : Nat → Nat × Nat × Nat) (addr : String),
    SumOctetsExtractor.generate_candidate 0 r fuel = some addr → addr = "0.0.0.0" := by
  intro fuel
  induction fuel with
  | zero =>
    intro r addr h
    exact absurd h (by simp [SumOctetsExtractor.generate_candidate])
  | succ f ih =>
    intro r addr h
    simp only [SumOctetsExtractor.generate_candidate] at h
    split at h
    · rename_i h0
      have haddr := (Option.some.inj h).symm
      subst haddr
      have ha : (r 0).1 = 0 := by omega
      have hb : (r 0).2.1 = 0 := by omega
      have hc : (r 0).2.2 = 0 := by omega
      rw [ha, hb, hc]
      have hd : ((0 : Int) - ((0 : Nat) + (0 : Nat) + (0 : Nat))).toNat = 0 := by omega
      norm_num
      decide
    · exact ih (fun k => r (k + 1)) addr h

/-- Counterexample to C3 as frozen: one seed, availability checker
reporting the seed and every generated candidate as reachable, and yet no
pair is returned, because every generated candidate equals the seed.  The
constant generator used here is exactly how the real octet-sum strategy
behaves at target 0, by `sum_candidate_zero`: the seed `"0.0.0.0"` has
octet sum 0, and `"0.0.0.0"` is the only address with that sum, so every
attempt is discarded by the `candidate == ip` guard. -/
theorem C3_counterexample_self_candidate :
    IPPairFinder.find_pairs (fun _ => true) SumOctetsExtractor.extract_property
      (fun _ (s : Unit) => ("0.0.0.0", s)) 10 ["0.0.0.0"] () = ([], ()) := by
  decide

/-- C3 amended: with one seed, a checker accepting the seed and every
generated candidate, and additionally some draw within the attempt budget
producing a candidate different from the seed, `find_pairs` returns at least
one pair, every returned pair records the seed's own extracted property, and
no returned pair has candidate equal to seed. -/
theorem C3_single_reachable_seed {σ : Type} (checker : String → Bool)
    (extract : String → Nat) (gen : Nat → σ → String × σ) (attempts : Nat)
    (ip : String) (s : σ)
    (hip : checker ip = true)
    (hcand : ∀ (t : Nat) (st : σ), checker (gen t st).1 = true)
    (hdiff : ∃ k, k < attempts ∧ ¬ nthCandidate gen (extract ip) s k = ip) :
    ¬ (IPPairFinder.find_pairs checker extract gen attempts [ip] s).1 = []
    ∧ ∀ row ∈ (IPPairFinder.find_pairs checker extract gen attempts [ip] s).1,
        row.2.2.2.2 = "Свойство=" ++ toString (extract ip) ∧ ¬ row.2.2.1 = row.1 := by
  constructor
  · simp only [IPPairFinder.find_pairs, if_pos hip]
    have h := attemptLoop_ne_nil checker gen ip (extract ip) hcand attempts s hdiff
    simpa using h
  · intro row hrow
    obtain ⟨ip2, hmem, _, st, k, _, hroweq, hne, _⟩ :=
      find_pairs_mem checker extract gen attempts [ip] s row hrow
    rw [List.mem_singleton] at hmem
    subst hmem
    subst hroweq
    exact ⟨rfl, hne⟩

/-- Witness for C3 (amended): one seed, constant distinct candidate. -/
theorem C3_single_reachable_seed_witness :
    ¬ (IPPairFinder.find_pairs (fun _ => true) SumOctetsExtractor.extract_property
        (fun _ (s : Unit) => ("1.1.1.1", s)) 2 ["2.2.2.2"] ()).1 = [] := by
  have h := C3_single_reachable_seed (σ := Unit) (fun _ => true)
    SumOctetsExtractor.extract_property (fun _ (s : Unit) => ("1.1.1.1", s)) 2
    "2.2.2.2" () rfl (fun t st => rfl) ⟨0, by omega, by decide⟩
  exact h.1

/-- C4: the attempt budget is respected.  For a reachable seed the loop
calls the candidate generator exactly `attempts` times — one state draw per
attempt, including attempts discarded because the candidate equals the seed
— as recorded by the final generator state `stateAfter … attempts`; and if
every draw in the budget is discarded or unreachable, the seed contributes
no pairs. -/
theorem C4_attempt_budget {σ : Type} (checker : String → Bool)
    (extract : String → Nat) (gen : Nat → σ → String × σ) (attempts : Nat)
    (ip : String) (s : σ)
    (hip : checker ip = true)
    (hfail : ∀ k, k < attempts → nthCandidate gen (extract ip) s k = ip
      ∨ checker (nthCandidate gen (extract ip) s k) = false) :
    IPPairFinder.find_pairs checker extract gen attempts [ip] s
      = ([], stateAfter gen (extract ip) s attempts) := by
  simp only [IPPairFinder.find_pairs, if_pos hip]
  rw [attemptLoop_nil checker gen ip (extract ip) attempts s hfail,
    attemptLoop_state checker gen ip (extract ip) attempts s]
  rfl

/-- Witness for C4: a counting state shows exactly 3 generation calls for a
budget of 3, and the seed contributes no pairs. -/
theorem C4_attempt_budget_witness :
    IPPairFinder.find_pairs (fun a => decide (a = "9.9.9.9"))
      SumOctetsExtractor.extract_property
      (fun _ (k : Nat) => ("1.1.1.1", k + 1)) 3 ["9.9.9.9"] 0 = ([], 3) := by
  have h := C4_attempt_budget (σ := Nat) (fun a => decide (a = "9.9.9.9"))
    SumOctetsExtractor.extract_property (fun _ (k : Nat) => ("1.1.1.1", k + 1)) 3
    "9.9.9.9" 0 (by decide) (fun k hk => Or.inr rfl)
  exact h

/-- C5: if the availability checker reports every address unreachable, every
seed is skipped and `find_pairs` returns the empty list; the empty seed list
returns the empty list for any checker. -/
theorem C5_nothing_reachable {σ : Type} (checker : String → Bool)
    (extract : String → Nat) (gen : Nat → σ → String × σ) (attempts : Nat)
    (hfalse : ∀ a, checker a = false) :
    (∀ (ips : List String) (s : σ),
      IPPairFinder.find_pairs checker extract gen attempts ips s = ([], s))
    ∧ ∀ (checker2 : String → Bool) (s : σ),
        IPPairFinder.find_pairs checker2 extract gen attempts [] s = ([], s) := by
  constructor
  · intro ips
    induction ips with
    | nil => intro s; rfl
    | cons ip rest ih =>
      intro s
      simp only [IPPairFinder.find_pairs, hfalse ip]
      exact ih s
  · intro checker2 s
    rfl

/-- Witness for C5: an always-false checker on a two-seed list. -/
theorem C5_nothing_reachable_witness :
    IPPairFinder.find_pairs (fun _ => false) SumOctetsExtractor.extract_property
      (fun _ (s : Unit) => ("0.0.0.0", s)) 10 ["8.8.8.8", "1.2.3.4"] () = ([], ()) := by
  have h := C5_nothing_reachable (σ := Unit) (fun _ => false)
    SumOctetsExtractor.extract_property (fun _ (s : Unit) => ("0.0.0.0", s)) 10
    (fun a => rfl)
  exact h.1 ["8.8.8.8", "1.2.3.4"] ()

/-- Counterexample to C7 as frozen: the header the application hands to the
CSV writer is not the English row `["Address1", "Status1", "Address2",
"Status2", "Property"]` (the code uses Russian column titles). -/
theorem C7_counterexample_header :
    ¬ (IPApp.run ([] : List String) (fun _ => true) SumOctetsExtractor.extract_property
        (fun _ (s : Unit) => ("0.0.0.0", s)) 10 ()).1
      = ["Address1", "Status1", "Address2", "Status2", "Property"] := by
  decide

/-- C7 amended: the data handed to the CSV writer is the fixed header row
`["IPv4-адрес 1", "Критерий 1", "IPv4-адрес 2", "Критерий 2", "Свойство"]`
followed by exactly the rows `find_pairs` returned, one per matched pair,
and in every such row both status fields are the literal reachable marker
`"Доступен"`. -/
theorem C7_csv_data {σ : Type} (ips : List String) (checker : String → Bool)
    (extract : String → Nat) (gen : Nat → σ → String × σ) (attempts : Nat) (s : σ) :
    (IPApp.run ips checker extract gen attempts s).1
      = ["IPv4-адрес 1", "Критерий 1", "IPv4-адрес 2", "Критерий 2", "Свойство"]
    ∧ (IPApp.run ips checker extract gen attempts s).2
      = (IPPairFinder.find_pairs checker extract gen attempts ips s).1
    ∧ ∀ row ∈ (IPApp.run ips checker extract gen attempts s).2,
        row.2.1 = "Доступен" ∧ row.2.2.2.1 = "Доступен" := by
  refine ⟨rfl, rfl, ?_⟩
  intro row hrow
  obtain ⟨ip, _, _, st, k, _, hroweq, _, _⟩ :=
    find_pairs_mem checker extract gen attempts ips s row hrow
  subst hroweq
  exact ⟨rfl, rfl⟩
